import Mathlib

/-!
Verification development for the AI-Career-Copilot extraction pipelines
(`src/parsers/job_parser.py` and `src/parsers/resume_parser.py`).

Texts are modelled as `List Char` (Python strings are sequences of
characters).  Regex character classes are modelled over ASCII: `\w` is
`[A-Za-z0-9_]`, `\s` is the six ASCII whitespace characters.  All inputs
exercised by the claims are ASCII.
-/

set_option maxHeartbeats 1000000

/-- `\s` of Python's `re` module (ASCII range), also the set stripped by
`str.strip()`. -/
def isWS (c : Char) : Bool :=
  c = ' ' || c = '\t' || c = '\n' || c = '\r' || c = '\x0b' || c = '\x0c'

/-- `\w` of Python's `re` module (ASCII range). -/
def isWordChar (c : Char) : Bool :=
  c.isAlphanum || c = '_'

/-- The character allow-list of `_clean_text` in both parsers:
`[^\w\s@.\-+(),:;]` is replaced by a space, so a character is kept
exactly when it is in `\w`, `\s` or the listed punctuation. -/
def allowedChar (c : Char) : Bool :=
  isWordChar c || isWS c || c = '@' || c = '.' || c = '-' || c = '+' ||
    c = '(' || c = ')' || c = ',' || c = ':' || c = ';'

/-- `re.sub(r'[^\w\s@.\-+(),:;]', ' ', text)`: every disallowed character
is replaced by a single space (character-wise map). -/
def replaceSpecial (l : List Char) : List Char :=
  l.map (fun c => if allowedChar c then c else ' ')

/-- `re.sub(r'\s+', ' ', text)`: every maximal run of whitespace becomes a
single space.  Implemented with a one-character lookahead: a whitespace
character followed by another whitespace character is dropped, the last
whitespace of a run is emitted as `' '`. -/
def collapseWS : List Char → List Char
  | [] => []
  | [c] => if isWS c then [' '] else [c]
  | c1 :: c2 :: cs =>
    if isWS c1 && isWS c2 then collapseWS (c2 :: cs)
    else (if isWS c1 then ' ' else c1) :: collapseWS (c2 :: cs)

/-- Left part of `str.strip()`. -/
def lstripWS (l : List Char) : List Char := l.dropWhile isWS

/-- Right part of `str.strip()`. -/
def rstripWS (l : List Char) : List Char := (l.reverse.dropWhile isWS).reverse

/-- `str.strip()`. -/
def stripWS (l : List Char) : List Char := rstripWS (lstripWS l)

/-- `JobParser._clean_text`: first replace disallowed characters by spaces,
then collapse whitespace runs, then strip. -/
def cleanJob (l : List Char) : List Char :=
  stripWS (collapseWS (replaceSpecial l))

/-- `ResumeParser._clean_text`: first collapse whitespace runs, then replace
disallowed characters by spaces, then strip.  Note the order differs from
`cleanJob`. -/
def cleanResume (l : List Char) : List Char :=
  stripWS (replaceSpecial (collapseWS l))

/-! ## Requirement classifier (`JobParser._classify_requirements`) -/

/-- Python `str.lower()` on ASCII text. -/
def lowerL (l : List Char) : List Char := l.map Char.toLower

/-- The `must_have_indicators` keyword list. -/
def mustHaveIndicators : List (List Char) :=
  [ "required".data, "must have".data, "essential".data, "mandatory".data,
    "minimum".data, "bachelor".data, "degree".data,
    "years of experience".data, "experience with".data, "proficient".data,
    "strong knowledge".data, "demonstrated experience".data ]

/-- The `nice_to_have_indicators` keyword list. -/
def niceToHaveIndicators : List (List Char) :=
  [ "preferred".data, "nice to have".data, "bonus".data, "plus".data,
    "ideal".data, "would be great".data, "advantage".data,
    "desirable".data, "beneficial".data ]

/-- Does `pat` occur at the front of the text? -/
def startsWithL : List Char → List Char → Bool
  | [], _ => true
  | _ :: _, [] => false
  | p :: ps, c :: cs => p == c && startsWithL ps cs

/-- Python's `pat in s` on strings: `pat` occurs contiguously in `s`. -/
def isSubstring (pat : List Char) : List Char → Bool
  | [] => startsWithL pat []
  | c :: cs => startsWithL pat (c :: cs) || isSubstring pat cs

/-- `any(indicator in req_lower for indicator in indicators)`: Python's
`in` on strings is substring containment. -/
def containsAny (inds : List (List Char)) (s : List Char) : Bool :=
  inds.any (fun i => isSubstring i s)

/-- One classification step of the loop in `_classify_requirements`
(`true` means the line goes to `nice_to_have`).  Mirrors the
`if`/`elif`/`else` chain of the source. -/
def classifyTarget (req : List Char) : Bool :=
  let l := lowerL req
  let isMust := containsAny mustHaveIndicators l
  let isNice := containsAny niceToHaveIndicators l
  if isNice && !isMust then true
  else if isMust || !isNice then false
  else false

structure RequirementSet where
  must_have : List (List Char)
  nice_to_have : List (List Char)
  deriving DecidableEq

/-- `list(dict.fromkeys(xs))` with an accumulator of already-seen keys:
keep an element exactly when it has not occurred before, preserving
order of first occurrence. -/
def dedupSeen (seen : List (List Char)) : List (List Char) → List (List Char)
  | [] => []
  | x :: xs => if seen.contains x then dedupSeen seen xs else x :: dedupSeen (x :: seen) xs

/-- `list(dict.fromkeys(xs))`. -/
def dedupKeepFirst (l : List (List Char)) : List (List Char) := dedupSeen [] l

/-- `JobParser._classify_requirements`.  The `nice_to_have` list is seeded
with the explicitly segmented items, then each requirement line is
appended to one of the two lists, then both lists are deduplicated with
`dict.fromkeys`.  The `full_text` argument is accepted and unused, as in
the source. -/
def classifyRequirements (reqs niceExplicit : List (List Char))
    (fullText : List Char) : RequirementSet :=
  let looped := reqs.foldl
    (fun (acc : RequirementSet) req =>
      if classifyTarget req then
        { acc with nice_to_have := acc.nice_to_have ++ [req] }
      else
        { acc with must_have := acc.must_have ++ [req] })
    { must_have := [], nice_to_have := niceExplicit }
  let _ := fullText
  { must_have := dedupKeepFirst looped.must_have,
    nice_to_have := dedupKeepFirst looped.nice_to_have }

/-! ## Section segmentation (`_extract_sections` of both parsers)

The header regexes are case-insensitive alternations of literal words
(with an optional trailing `s?` and an occasional `.` wildcard).  An
alternative is a list of atoms (`some c` = literal character, `none` =
`.`, which matches anything but a newline) plus a flag for a trailing
optional `s`.  `re.search` semantics: leftmost position wins, and at a
position the first alternative that matches wins. -/

structure HdrAlt where
  core : List (Option Char)
  optS : Bool
  deriving Inhabited

/-- Match the atom list at the front of the text, returning the rest. -/
def atomsMatch : List (Option Char) → List Char → Option (List Char)
  | [], cs => some cs
  | _ :: _, [] => none
  | some p :: as, c :: cs =>
    if c.toLower = p.toLower then atomsMatch as cs else none
  | none :: as, c :: cs =>
    if c = '\n' then none else atomsMatch as cs

/-- Length matched by one alternative at the front of the text (greedy
optional trailing `s`). -/
def altMatchLen (a : HdrAlt) (cs : List Char) : Option Nat :=
  match atomsMatch a.core cs with
  | none => none
  | some rest =>
    let base := cs.length - rest.length
    match rest with
    | r :: _ => if a.optS && (r = 's' || r = 'S') then some (base + 1) else some base
    | [] => some base

/-- Scan for the leftmost match of an alternation; returns the span
`(start, end)` of the match. -/
def searchAltsAux (alts : List HdrAlt) (i : Nat) : List Char → Option (Nat × Nat)
  | [] => (alts.findSome? (fun a => altMatchLen a [])).map (fun n => (i, i + n))
  | c :: cs =>
    match alts.findSome? (fun a => altMatchLen a (c :: cs)) with
    | some n => some (i, i + n)
    | none => searchAltsAux alts (i + 1) cs

/-- `re.search(pattern, text, re.IGNORECASE)` for a literal alternation. -/
def searchAlts (alts : List HdrAlt) (cs : List Char) : Option (Nat × Nat) :=
  searchAltsAux alts 0 cs

/-- `re.search(f'(pattern)[:\s]*', text, re.IGNORECASE)`: same leftmost
position (the suffix may match empty), with the end extended greedily
over colons and whitespace. -/
def searchAltsHdr (alts : List HdrAlt) (cs : List Char) : Option (Nat × Nat) :=
  (searchAlts alts cs).map
    (fun m => (m.1, m.2 + ((cs.drop m.2).takeWhile (fun c => isWS c || c = ':')).length))

/-- A named header pattern of the `section_patterns` table.  `pat` is the
source regex text (used only for the `other_pattern != pattern`
comparison), `search` models `re.search(pat, ·)` and `searchHdr` models
`re.search(pat + "[:\s]*", ·)`. -/
structure HeaderPattern where
  name : String
  pat : String
  search : List Char → Option (Nat × Nat)
  searchHdr : List Char → Option (Nat × Nat)

/-- The `next_sections` list: absolute start positions of every OTHER
pattern's first match in `text[start_pos:]`. -/
def sectionEnds (tbl : List HeaderPattern) (p : HeaderPattern)
    (t : List Char) (e : Nat) : List Nat :=
  tbl.filterMap (fun q =>
    if q.pat ≠ p.pat then (q.search (t.drop e)).map (fun m => e + m.1) else none)

/-- `end_pos = min(next_sections) if next_sections else len(text)`. -/
def sectionEndPos (tbl : List HeaderPattern) (p : HeaderPattern)
    (t : List Char) (e : Nat) : Nat :=
  match sectionEnds tbl p t e with
  | [] => t.length
  | x :: xs => xs.foldl Nat.min x

/-- `_extract_sections`: one entry per header pattern whose
`pattern[:\s]*` search matched, in table order, holding
`text[start_pos:end_pos].strip()`.  The Python dict (distinct keys in the
concrete tables) is modelled as an association list built in insertion
order. -/
def extractSections (tbl : List HeaderPattern) (t : List Char) :
    List (String × List Char) :=
  tbl.filterMap (fun p =>
    (p.searchHdr t).map (fun m =>
      (p.name, stripWS ((t.take (sectionEndPos tbl p t m.2)).drop m.2))))

/-- Literal alternative of a header regex. -/
def litAlt (s : String) : HdrAlt := ⟨s.data.map some, false⟩

/-- Literal alternative with a trailing `s?`. -/
def litAltS (s : String) : HdrAlt := ⟨s.data.map some, true⟩

/-- Alternative containing one `.` wildcard between two literals. -/
def litAltDot (s1 s2 : String) : HdrAlt :=
  ⟨s1.data.map some ++ [none] ++ s2.data.map some, false⟩

def jobRequirementsAlts : List HdrAlt :=
  [litAltS "requirement", litAltS "qualification",
   litAltDot "what we" "re looking for", litAlt "must have"]

def jobResponsibilitiesAlts : List HdrAlt :=
  [litAltS "responsibilitie", litAlt "duties", litAltDot "what you" "ll do",
   litAlt "role", litAlt "position"]

def jobBenefitsAlts : List HdrAlt :=
  [litAltS "benefit", litAlt "perks", litAlt "what we offer",
   litAlt "compensation"]

def jobAboutAlts : List HdrAlt :=
  [litAlt "about", litAlt "company", litAlt "who we are"]

def jobNiceAlts : List HdrAlt :=
  [litAlt "nice to have", litAlt "preferred", litAlt "bonus", litAlt "plus"]

def mkHdrPattern (name pat : String) (alts : List HdrAlt) : HeaderPattern :=
  { name := name, pat := pat,
    search := searchAlts alts, searchHdr := searchAltsHdr alts }

def jobReqPat : HeaderPattern :=
  mkHdrPattern "requirements"
    "(?i)(requirements?|qualifications?|what we.re looking for|must have)"
    jobRequirementsAlts

def jobRespPat : HeaderPattern :=
  mkHdrPattern "responsibilities"
    "(?i)(responsibilities?|duties|what you.ll do|role|position)"
    jobResponsibilitiesAlts

def jobBenefitsPat : HeaderPattern :=
  mkHdrPattern "benefits"
    "(?i)(benefits?|perks|what we offer|compensation)"
    jobBenefitsAlts

def jobAboutPat : HeaderPattern :=
  mkHdrPattern "about" "(?i)(about|company|who we are)" jobAboutAlts

def jobNicePat : HeaderPattern :=
  mkHdrPattern "nice_to_have"
    "(?i)(nice to have|preferred|bonus|plus)" jobNiceAlts

/-- The `section_patterns` table of `JobParser._extract_sections`. -/
def jobSectionTable : List HeaderPattern :=
  [jobReqPat, jobRespPat, jobBenefitsPat, jobAboutPat, jobNicePat]

def resSummaryPat : HeaderPattern :=
  mkHdrPattern "summary" "(?i)(summary|profile|objective|about|overview)"
    [litAlt "summary", litAlt "profile", litAlt "objective",
     litAlt "about", litAlt "overview"]

def resExperiencePat : HeaderPattern :=
  mkHdrPattern "experience" "(?i)(experience|employment|work|professional|career)"
    [litAlt "experience", litAlt "employment", litAlt "work",
     litAlt "professional", litAlt "career"]

def resEducationPat : HeaderPattern :=
  mkHdrPattern "education" "(?i)(education|academic|qualification|degree)"
    [litAlt "education", litAlt "academic", litAlt "qualification",
     litAlt "degree"]

def resSkillsPat : HeaderPattern :=
  mkHdrPattern "skills" "(?i)(skills|competencies|technical|technologies|expertise)"
    [litAlt "skills", litAlt "competencies", litAlt "technical",
     litAlt "technologies", litAlt "expertise"]

def resProjectsPat : HeaderPattern :=
  mkHdrPattern "projects" "(?i)(projects|portfolio|work samples)"
    [litAlt "projects", litAlt "portfolio", litAlt "work samples"]

def resCertificationsPat : HeaderPattern :=
  mkHdrPattern "certifications" "(?i)(certifications?|certificates?|licenses?)"
    [litAltS "certification", litAltS "certificate", litAltS "license"]

/-- The `section_patterns` table of `ResumeParser._extract_sections`. -/
def resumeSectionTable : List HeaderPattern :=
  [resSummaryPat, resExperiencePat, resEducationPat, resSkillsPat,
   resProjectsPat, resCertificationsPat]

/-! ## Salary extraction (`JobParser._extract_company_info`, salary part)

The three `salary_patterns` are compiled to deterministic parsers.  For
these regexes greedy matching never needs to revisit an earlier choice:
every backtracking alternative fails whenever the greedy path fails,
because each piece is followed by a piece that cannot consume the same
characters (digits are followed by a non-digit separator, `[\s:]*` by
`\$?\d`, and so on).  A parser returns `none` exactly when `re` would
fail to match at that position, and the surrounding scan supplies
`re.search`'s leftmost-position semantics. -/

/-- Greedy `(?:,\d{3})*`: consume `,ddd` groups, returning the consumed
prefix and the rest. -/
def commaGroups : List Char → List Char × List Char
  | c :: a :: b :: d :: rest =>
    if c = ',' && a.isDigit && b.isDigit && d.isDigit then
      let (g, r) := commaGroups rest
      (c :: a :: b :: d :: g, r)
    else ([], c :: a :: b :: d :: rest)
  | l => ([], l)

/-- The optional suffix of a salary number group: `(?:\.\d{2})?` in the
first pattern, `k?` in the second, case-insensitive `(?:k|,000)?` in the
third (its `,000` branch is always absorbed by `commaGroups` first, and
when the greedy path dies later both choices die identically). -/
inductive SalSfx where
  | dec2 : SalSfx
  | kLower : SalSfx
  | kCI : SalSfx

def salSfxTake : SalSfx → List Char → List Char × List Char
  | .dec2, '.' :: a :: b :: r =>
    if a.isDigit && b.isDigit then (['.', a, b], r) else ([], '.' :: a :: b :: r)
  | .dec2, l => ([], l)
  | .kLower, 'k' :: r => (['k'], r)
  | .kLower, l => ([], l)
  | .kCI, c :: r => if c = 'k' || c = 'K' then ([c], r) else ([], c :: r)
  | .kCI, [] => ([], [])

/-- `\d{1,3}(?:,\d{3})*(sfx)?` when it is followed by `\s*(?:-|to)`:
a digit run longer than 3, or a digit left over right after the comma
groups, makes every greedy and backtracking choice fail (the next
required token is never a digit), so the whole position fails. -/
def salNumMid (sfx : SalSfx) (cs : List Char) : Option (List Char × List Char) :=
  let ds := cs.takeWhile Char.isDigit
  if ds.length = 0 || 3 < ds.length then none
  else
    let (cg, r1) := commaGroups (cs.drop ds.length)
    match r1.head? with
    | some c =>
      if c.isDigit then none
      else
        let (sg, r2) := salSfxTake sfx r1
        some (ds ++ cg ++ sg, r2)
    | none => some (ds ++ cg, [])

/-- `\d{1,3}(?:,\d{3})*(sfx)?` at the end of the pattern: nothing follows,
so `\d{1,3}` simply takes up to three digits and extra digits are left
unconsumed. -/
def salNumEnd (sfx : SalSfx) (cs : List Char) : Option (List Char × List Char) :=
  let ds := cs.takeWhile Char.isDigit
  if ds.length = 0 then none
  else
    let d3 := ds.take 3
    let (cg, r1) := commaGroups (cs.drop d3.length)
    let (sg, r2) := salSfxTake sfx r1
    some (d3 ++ cg ++ sg, r2)

/-- `(?:-|to)` (`ci` also accepts upper-case letters, for the
`(?i)`-flagged third pattern). -/
def salSep (ci : Bool) : List Char → Option (List Char)
  | '-' :: r => some r
  | t :: o :: r =>
    if (t = 't' || (ci && t = 'T')) && (o = 'o' || (ci && o = 'O'))
    then some r else none
  | _ => none

/-- `\$?` (consuming a present `$` is equivalent: if no digit follows,
both the consuming and the empty choice fail). -/
def dropOptDollar : List Char → List Char
  | '$' :: r => r
  | l => l

/-- Try salary pattern 1 at the current position:
`\$(\d{1,3}(?:,\d{3})*(?:\.\d{2})?)\s*(?:-|to)\s*\$?(\d{1,3}(?:,\d{3})*(?:\.\d{2})?)`.
Returns the two captured groups. -/
def sal1At : List Char → Option (List Char × List Char)
  | [] => none
  | c :: r0 =>
    if c = '$' then
      match salNumMid .dec2 r0 with
      | none => none
      | some (g1, r1) =>
        match salSep false (r1.dropWhile isWS) with
        | none => none
        | some r2 =>
          match salNumEnd .dec2 (dropOptDollar (r2.dropWhile isWS)) with
          | none => none
          | some (g2, _) => some (g1, g2)
    else none

/-- Try salary pattern 2 at the current position:
`\$(\d{1,3}(?:,\d{3})*k?)\s*(?:-|to)\s*\$?(\d{1,3}(?:,\d{3})*k?)`. -/
def sal2At : List Char → Option (List Char × List Char)
  | [] => none
  | c :: r0 =>
    if c = '$' then
      match salNumMid .kLower r0 with
      | none => none
      | some (g1, r1) =>
        match salSep false (r1.dropWhile isWS) with
        | none => none
        | some r2 =>
          match salNumEnd .kLower (dropOptDollar (r2.dropWhile isWS)) with
          | none => none
          | some (g2, _) => some (g1, g2)
    else none

/-- Case-insensitive literal at the front of the text, returning the rest. -/
def ciLitDrop : List Char → List Char → Option (List Char)
  | [], cs => some cs
  | _ :: _, [] => none
  | p :: ps, c :: cs => if c.toLower = p.toLower then ciLitDrop ps cs else none

/-- Try salary pattern 3 at the current position:
`(?i)salary[\s:]*\$?(\d{1,3}(?:,\d{3})*(?:k|,000)?)\s*(?:-|to)\s*\$?(\d{1,3}(?:,\d{3})*(?:k|,000)?)`. -/
def sal3At (cs : List Char) : Option (List Char × List Char) :=
  match ciLitDrop "salary".data cs with
  | none => none
  | some r0 =>
    match salNumMid .kCI
        (dropOptDollar (r0.dropWhile (fun c => isWS c || c = ':'))) with
    | none => none
    | some (g1, r1) =>
      match salSep true (r1.dropWhile isWS) with
      | none => none
      | some r2 =>
        match salNumEnd .kCI (dropOptDollar (r2.dropWhile isWS)) with
        | none => none
        | some (g2, _) => some (g1, g2)

/-- Leftmost-position scan of `re.search`: try the matcher at every
position, earliest success wins (the empty position at the end of the
text is also tried, as `re` does). -/
def scanFirst (f : List Char → Option (List Char × List Char)) :
    List Char → Option (List Char × List Char)
  | [] => f []
  | c :: cs =>
    match f (c :: cs) with
    | some r => some r
    | none => scanFirst f cs

/-- `f"${match.group(1)} - ${match.group(2)}"`. -/
def salaryFormat (g1 g2 : List Char) : List Char :=
  '$' :: g1 ++ ' ' :: '-' :: ' ' :: '$' :: g2

/-- The `salary_patterns` loop of `_extract_company_info`: the patterns
are tried in order and the first one whose `re.search` finds a match
formats `company_info['salary_range']`. -/
def extractSalaryRange (cs : List Char) : Option (List Char) :=
  match scanFirst sal1At cs with
  | some (g1, g2) => some (salaryFormat g1 g2)
  | none =>
    match scanFirst sal2At cs with
    | some (g1, g2) => some (salaryFormat g1 g2)
    | none =>
      match scanFirst sal3At cs with
      | some (g1, g2) => some (salaryFormat g1 g2)
      | none => none

/-- `parse_job_text` cleans the raw text and hands the cleaned text to
`_extract_company_info`; this is the `salary_range` field of the result. -/
def parseJobSalaryRange (t : List Char) : Option (List Char) :=
  extractSalaryRange (cleanJob t)

/-- Does the text start with a `,ddd` group (which the greedy
`(?:,\d{3})*` of the salary number pattern would consume)? -/
def startsCommaD3 : List Char → Bool
  | c :: a :: b :: d :: _ => c = ',' && a.isDigit && b.isDigit && d.isDigit
  | _ => false

/-- Does the text start with `k`/`K` (which the `(?i)(?:k|,000)?` suffix
of the third salary pattern would consume)? -/
def headKay : List Char → Bool
  | c :: _ => c = 'k' || c = 'K'
  | [] => false

/-- The character(s) right after a salary scenario substring extend the
second captured number when they form a `,ddd` group or a `k`. -/
def extendsNumber (post : List Char) : Bool :=
  headKay post || startsCommaD3 post

/-! ## A small backtracking regex engine

Used for the résumé patterns (contact info, dates, degree, year, and the
split lookaheads), whose values none of the claims inspect beyond
existence.  `mrun` returns the list of possible `(previous character,
remaining text)` outcomes in Python's backtracking priority order
(alternation tries the left branch first, `*` and `?` are greedy), so the
head of the list is the match `re` reports.  The previous character is
threaded through to evaluate `\b`.  The fuel only bounds `*` unfolding;
`length + 1` is enough for the star bodies used here, which all consume
at least one character per iteration. -/

inductive RE where
  | eps : RE
  | cls : (Char → Bool) → RE
  | cat : RE → RE → RE
  | alt : RE → RE → RE
  | star : RE → RE
  | opt : RE → RE
  | wordB : RE

/-- Is an optional character a word character (`none` = outside the
text)? -/
def isWordOpt : Option Char → Bool
  | none => false
  | some c => isWordChar c

def mrun (fuel : Nat) : RE → Option Char → List Char →
    List (Option Char × List Char)
  | .eps, pv, cs => [(pv, cs)]
  | .cls _, _, [] => []
  | .cls p, _, c :: cs => if p c then [(some c, cs)] else []
  | .cat a b, pv, cs =>
    (mrun fuel a pv cs).flatMap (fun r => mrun fuel b r.1 r.2)
  | .alt a b, pv, cs => mrun fuel a pv cs ++ mrun fuel b pv cs
  | .opt a, pv, cs => mrun fuel a pv cs ++ [(pv, cs)]
  | .star a, pv, cs =>
    match fuel with
    | 0 => [(pv, cs)]
    | f + 1 =>
      (mrun f a pv cs).flatMap (fun r => mrun f (.star a) r.1 r.2) ++ [(pv, cs)]
  | .wordB, pv, cs =>
    if isWordOpt pv != isWordOpt cs.head? then [(pv, cs)] else []
termination_by r _ _ => (fuel, sizeOf r)
decreasing_by
  all_goals simp_wf
  all_goals omega

/-- Does the regex match starting exactly here (used for the zero-width
lookaheads in `re.split`)? -/
def matchesAtB (r : RE) (pv : Option Char) (cs : List Char) : Bool :=
  !(mrun (cs.length + 1) r pv cs).isEmpty

/-- `re.search(r, text)`: leftmost position, preferred (head) outcome;
returns the matched span `match.group()`. -/
def searchSpanAux (fuel : Nat) (r : RE) (pv : Option Char) :
    List Char → Option (List Char)
  | [] => ((mrun fuel r pv []).head?).map (fun _ => [])
  | c :: cs =>
    match (mrun fuel r pv (c :: cs)).head? with
    | some o => some ((c :: cs).take ((c :: cs).length - o.2.length))
    | none => searchSpanAux fuel r (some c) cs

def searchSpan (r : RE) (cs : List Char) : Option (List Char) :=
  searchSpanAux (cs.length + 1) r none cs

def reChar (c : Char) : RE := .cls (fun x => x = c)

def reCharCI (c : Char) : RE := .cls (fun x => x.toLower = c.toLower)

def reLit (s : String) : RE :=
  s.data.foldr (fun c acc => .cat (reChar c) acc) .eps

def reLitCI (s : String) : RE :=
  s.data.foldr (fun c acc => .cat (reCharCI c) acc) .eps

def rePlus (r : RE) : RE := .cat r (.star r)

def reAlts : List RE → RE
  | [] => .cls (fun _ => false)
  | [r] => r
  | r :: rs => .alt r (reAlts rs)

def reDigit : RE := .cls Char.isDigit

/-- `\d{4}`. -/
def reD4 : RE := .cat reDigit (.cat reDigit (.cat reDigit reDigit))

/-- `\d{3}`. -/
def reD3 : RE := .cat reDigit (.cat reDigit reDigit)

/-- `\d{1,3}` (greedy). -/
def reD13 : RE := .cat reDigit (.opt (.cat reDigit (.opt reDigit)))

/-- `\s*`. -/
def reWSStar : RE := .star (.cls isWS)

/-- Email: `\b[A-Za-z0-9._%+-]+@[A-Za-z0-9.-]+\.[A-Z|a-z]{2,}\b`
(the `|` inside the last class is part of the source pattern). -/
def emailRE : RE :=
  .cat .wordB (.cat
    (rePlus (.cls (fun c => c.isAlphanum || c = '.' || c = '_' || c = '%' ||
      c = '+' || c = '-')))
    (.cat (reChar '@') (.cat
      (rePlus (.cls (fun c => c.isAlphanum || c = '.' || c = '-')))
      (.cat (reChar '.') (.cat
        (let tld : RE := .cls (fun c => c.isUpper || c = '|' || c.isLower)
         .cat tld (.cat tld (.star tld)))
        .wordB)))))

/-- Phone: `(\+?\d{1,3}[-.\s]?)?\(?\d{3}\)?[-.\s]?\d{3}[-.\s]?\d{4}`. -/
def phoneRE : RE :=
  let sep : RE := .opt (.cls (fun c => c = '-' || c = '.' || isWS c))
  .cat (.opt (.cat (.opt (reChar '+')) (.cat reD13 sep)))
    (.cat (.opt (reChar '(')) (.cat reD3 (.cat (.opt (reChar ')'))
      (.cat sep (.cat reD3 (.cat sep reD4))))))

/-- LinkedIn: `(?i)linkedin\.com/in/([a-zA-Z0-9-]+)`; `.group()` is the
whole match. -/
def linkedinRE : RE :=
  .cat (reLitCI "linkedin.com/in/")
    (rePlus (.cls (fun c => c.isAlphanum || c = '-')))

/-- GitHub: `(?i)github\.com/([a-zA-Z0-9-]+)`. -/
def githubRE : RE :=
  .cat (reLitCI "github.com/") (rePlus (.cls (fun c => c.isAlphanum || c = '-')))

/-- Dates of a job entry: `(?i)(\d{4})\s*[-–—]\s*(\d{4}|present|current)`. -/
def dateRE : RE :=
  .cat reD4 (.cat reWSStar (.cat
    (.cls (fun c => c = '-' || c = '–' || c = '—'))
    (.cat reWSStar (reAlts [reD4, reLitCI "present", reLitCI "current"]))))

/-- Degree: `(?i)(bachelor|master|phd|doctorate|associate|diploma|certificate)`. -/
def degreeRE : RE :=
  reAlts (["bachelor", "master", "phd", "doctorate", "associate",
    "diploma", "certificate"].map reLitCI)

/-- Year: `\b(19|20)\d{2}\b`. -/
def yearRE : RE :=
  .cat .wordB (.cat (.alt (reLit "19") (reLit "20"))
    (.cat reDigit (.cat reDigit .wordB)))

/-- Lookahead of the experience split:
`re.split(r'\n(?=[A-Z][^,]*(?:,|\s+\d{4}))', ...)`. -/
def expLookRE : RE :=
  .cat (.cls (fun c => 'A' ≤ c && c ≤ 'Z'))
    (.cat (.star (.cls (fun c => c ≠ ',')))
      (.alt (reChar ',') (.cat (rePlus (.cls isWS)) reD4)))

/-- Lookahead of the education split (`re.IGNORECASE` makes `[A-Z]` match
any letter):
`re.split(r'\n(?=[A-Z][^,]*(?:degree|bachelor|master|phd|university|college))', ..., flags=re.IGNORECASE)`. -/
def eduLookRE : RE :=
  .cat (.cls Char.isAlpha)
    (.cat (.star (.cls (fun c => c ≠ ',')))
      (reAlts (["degree", "bachelor", "master", "phd", "university",
        "college"].map reLitCI)))

/-! ## Résumé extractors (`ResumeParser`) -/

structure ContactInfo where
  email : Option (List Char)
  phone : Option (List Char)
  linkedin : Option (List Char)
  github : Option (List Char)
  location : Option (List Char)
  deriving DecidableEq

/-- `ResumeParser._extract_contact_info`: four independent first-match
extractions; `location` is declared in the result dict and never
assigned by any pattern. -/
def extractContactInfo (cs : List Char) : ContactInfo :=
  { email := searchSpan emailRE cs,
    phone := searchSpan phoneRE cs,
    linkedin := searchSpan linkedinRE cs,
    github := searchSpan githubRE cs,
    location := none }

/-- `str.split(sep)` for a single character, keeping empty pieces. -/
def splitChar (sep : Char) : List Char → List (List Char)
  | [] => [[]]
  | c :: cs =>
    if c = sep then [] :: splitChar sep cs
    else
      match splitChar sep cs with
      | [] => [[c]]
      | p :: ps => (c :: p) :: ps

/-- `re.split(r'[,;\n•|]', text)`: split at every occurrence of any of
the separator characters. -/
def splitSkillToks (cs : List Char) : List (List Char) :=
  (((splitChar ',' cs).flatMap (splitChar ';')).flatMap
    (splitChar '\n')).flatMap (fun p => (splitChar '•' p).flatMap (splitChar '|'))

/-- Token clean-up of `_extract_skills`: `strip()`, then
`re.sub(r'^[-•\s]*', '', ·)` (leading dash/bullet/whitespace run), then
`re.sub(r'[.:\s]*$', '', ·)` (trailing dot/colon/whitespace run). -/
def cleanSkillTok (tok : List Char) : List Char :=
  let s1 := stripWS tok
  let s2 := s1.dropWhile (fun c => c = '-' || c = '•' || isWS c)
  (s2.reverse.dropWhile (fun c => c = '.' || c = ':' || isWS c)).reverse

/-- `ResumeParser._extract_skills`: split, clean each token, keep tokens
that are non-empty and longer than one character. -/
def extractSkills (cs : List Char) : List (List Char) :=
  if cs = [] then []
  else
    ((splitSkillToks cs).map cleanSkillTok).filter
      (fun s => !s.isEmpty && 1 < s.length)

/-- Does the zero-width lookahead of the experience split succeed just
after a `\n` (whose text continues with `cs`)? -/
def expLookaheadB (cs : List Char) : Bool :=
  matchesAtB expLookRE (some '\n') cs

/-- `re.split(r'\n(?=[A-Z][^,]*(?:,|\s+\d{4}))', text)`: split at each
newline whose lookahead succeeds; the newline is consumed. -/
def splitExpAux (cur : List Char) : List Char → List (List Char)
  | [] => [cur.reverse]
  | c :: cs =>
    if c = '\n' && expLookaheadB cs then cur.reverse :: splitExpAux [] cs
    else splitExpAux (c :: cur) cs

def splitExp (t : List Char) : List (List Char) := splitExpAux [] t

/-- `re.match(r'^\d{4}', line)`: the line starts with four digits. -/
def startsFourDigits (l : List Char) : Bool :=
  (l.take 4).length = 4 && (l.take 4).all Char.isDigit

structure ExperienceEntry where
  title : List Char
  company : Option (List Char)
  dates : Option (List Char)
  description : List Char
  raw_text : List Char
  deriving DecidableEq

/-- `ResumeParser._parse_job_entry`: first line is the title, a
`(\d{4})\s*[-–—]\s*(\d{4}|present|current)` search gives the dates,
`company` is hard-coded `None`, the remaining stripped non-empty lines
that do not start with four digits are joined as the description. -/
def parseJobEntry (entry : List Char) : Option ExperienceEntry :=
  match splitChar '\n' entry with
  | [] => none
  | first :: rest =>
    some { title := stripWS first,
           company := none,
           dates := searchSpan dateRE entry,
           description :=
             List.intercalate ['\n']
               ((rest.map stripWS).filter
                 (fun l => !l.isEmpty && !startsFourDigits l)),
           raw_text := entry }

/-- `ResumeParser._extract_experience`: split into candidate entries,
keep the ones whose stripped length exceeds 20, parse each. -/
def extractExperience (t : List Char) : List ExperienceEntry :=
  if t = [] then []
  else
    (splitExp t).filterMap (fun e =>
      if 20 < (stripWS e).length then parseJobEntry (stripWS e) else none)

/-- Lookahead of the education split just after a `\n`. -/
def eduLookaheadB (cs : List Char) : Bool :=
  matchesAtB eduLookRE (some '\n') cs

def splitEduAux (cur : List Char) : List Char → List (List Char)
  | [] => [cur.reverse]
  | c :: cs =>
    if c = '\n' && eduLookaheadB cs then cur.reverse :: splitEduAux [] cs
    else splitEduAux (c :: cur) cs

def splitEdu (t : List Char) : List (List Char) := splitEduAux [] t

structure EducationEntry where
  degree : Option (List Char)
  institution : Option (List Char)
  year : Option (List Char)
  raw_text : List Char
  deriving DecidableEq

/-- `ResumeParser._parse_education_entry`: degree and year by first
match, `institution` is hard-coded `None`. -/
def parseEducationEntry (entry : List Char) : EducationEntry :=
  { degree := searchSpan degreeRE entry,
    institution := none,
    year := searchSpan yearRE entry,
    raw_text := entry }

/-- `ResumeParser._extract_education`: split, keep entries whose stripped
length exceeds 10, parse each (`_parse_education_entry` always returns a
truthy dict). -/
def extractEducation (t : List Char) : List EducationEntry :=
  if t = [] then []
  else
    ((splitEdu t).filter (fun e => 10 < (stripWS e).length)).map
      (fun e => parseEducationEntry (stripWS e))

/-- `sections.get(name, '')`. -/
def lookupD (l : List (String × List Char)) (k : String) : List Char :=
  (l.lookup k).getD []

structure ResumeResult where
  raw_text : List Char
  cleaned_text : List Char
  contact_info : ContactInfo
  sections : List (String × List Char)
  skills : List (List Char)
  experience : List ExperienceEntry
  education : List EducationEntry
  summary : List Char

/-- `ResumeParser.parse_text`: clean, segment, and run every extractor on
its section (contact info runs on the whole cleaned text). -/
def parseText (t : List Char) : ResumeResult :=
  let cleaned := cleanResume t
  let secs := extractSections resumeSectionTable cleaned
  { raw_text := t,
    cleaned_text := cleaned,
    contact_info := extractContactInfo cleaned,
    sections := secs,
    skills := extractSkills (lookupD secs "skills"),
    experience := extractExperience (lookupD secs "experience"),
    education := extractEducation (lookupD secs "education"),
    summary := lookupD secs "summary" }

/-! ## Theorems -/

theorem mem_dedupSeen (l : List (List Char)) :
    ∀ (seen : List (List Char)) (a : List Char),
      a ∈ dedupSeen seen l ↔ a ∈ l ∧ a ∉ seen := by
  induction l with
  | nil => intro seen a; simp [dedupSeen]
  | cons x xs ih =>
    intro seen a
    rw [dedupSeen]
    by_cases hx : x ∈ seen
    · rw [if_pos (by simpa using hx), ih]
      constructor
      · rintro ⟨h1, h2⟩; exact ⟨List.mem_cons_of_mem _ h1, h2⟩
      · rintro ⟨h1, h2⟩
        rcases List.mem_cons.mp h1 with rfl | h1
        · exact absurd hx h2
        · exact ⟨h1, h2⟩
    · rw [if_neg (by simpa using hx)]
      constructor
      · intro h
        rcases List.mem_cons.mp h with rfl | h
        · exact ⟨List.mem_cons_self _ _, hx⟩
        · obtain ⟨h1, h2⟩ := (ih _ _).mp h
          exact ⟨List.mem_cons_of_mem _ h1,
            fun hs => h2 (List.mem_cons_of_mem _ hs)⟩
      · rintro ⟨h1, h2⟩
        rcases List.mem_cons.mp h1 with rfl | h1
        · exact List.mem_cons_self _ _
        · by_cases hax : a = x
          · subst hax; exact List.mem_cons_self _ _
          · refine List.mem_cons_of_mem _ ((ih _ _).mpr ⟨h1, ?_⟩)
            intro hmem
            rcases List.mem_cons.mp hmem with h | h
            · exact hax h
            · exact h2 h

theorem nodup_dedupSeen (l : List (List Char)) :
    ∀ seen : List (List Char), (dedupSeen seen l).Nodup := by
  induction l with
  | nil => intro seen; simp [dedupSeen]
  | cons x xs ih =>
    intro seen
    rw [dedupSeen]
    by_cases hx : x ∈ seen
    · rw [if_pos (by simpa using hx)]; exact ih seen
    · rw [if_neg (by simpa using hx)]
      refine List.nodup_cons.mpr ⟨?_, ih _⟩
      rw [mem_dedupSeen]
      simp

theorem sublist_dedupSeen (l : List (List Char)) :
    ∀ seen : List (List Char), (dedupSeen seen l).Sublist l := by
  induction l with
  | nil => intro seen; simp [dedupSeen]
  | cons x xs ih =>
    intro seen
    rw [dedupSeen]
    by_cases hx : x ∈ seen
    · rw [if_pos (by simpa using hx)]
      exact (ih seen).trans (List.sublist_cons_self x xs)
    · rw [if_neg (by simpa using hx)]
      exact List.Sublist.cons₂ x (ih _)

theorem mem_dedupKeepFirst (l : List (List Char)) (a : List Char) :
    a ∈ dedupKeepFirst l ↔ a ∈ l := by
  rw [dedupKeepFirst, mem_dedupSeen]; simp

theorem nodup_dedupKeepFirst (l : List (List Char)) :
    (dedupKeepFirst l).Nodup := nodup_dedupSeen l []

theorem sublist_dedupKeepFirst (l : List (List Char)) :
    (dedupKeepFirst l).Sublist l := sublist_dedupSeen l []

/-- The classification loop of `_classify_requirements`, characterised:
the requirement lines split into the two lists by `classifyTarget`,
appended behind the seeds. -/
theorem classifyLoop_spec (reqs : List (List Char)) (acc : RequirementSet) :
    reqs.foldl
      (fun (acc : RequirementSet) req =>
        if classifyTarget req then
          { acc with nice_to_have := acc.nice_to_have ++ [req] }
        else
          { acc with must_have := acc.must_have ++ [req] })
      acc =
    { must_have := acc.must_have ++ reqs.filter (fun r => !classifyTarget r),
      nice_to_have := acc.nice_to_have ++ reqs.filter (fun r => classifyTarget r) } := by
  induction reqs generalizing acc with
  | nil => simp
  | cons r rs ih =>
    simp only [List.foldl_cons]
    by_cases hr : classifyTarget r
    · rw [if_pos hr, ih]
      simp [hr]
    · rw [if_neg hr, ih]
      have hr' : classifyTarget r = false := by simpa using hr
      simp [hr']

theorem classifyRequirements_must_have (reqs niceExplicit : List (List Char))
    (fullText : List Char) :
    (classifyRequirements reqs niceExplicit fullText).must_have =
      dedupKeepFirst (reqs.filter (fun r => !classifyTarget r)) := by
  rw [classifyRequirements, classifyLoop_spec]
  simp

theorem classifyRequirements_nice_to_have (reqs niceExplicit : List (List Char))
    (fullText : List Char) :
    (classifyRequirements reqs niceExplicit fullText).nice_to_have =
      dedupKeepFirst (niceExplicit ++ reqs.filter (fun r => classifyTarget r)) := by
  rw [classifyRequirements, classifyLoop_spec]

/-- C1 (amended): for EVERY input, the two output lists of the
requirement classifier are deduplicated and preserve the order of their
inputs (each is a sublist of its input order and every classified string
is still present, i.e. first occurrences survive deduplication); and —
provided the requirement list and the explicit nice-to-have list share
no string — no string appears in both outputs.  Only the cross-list
conjunct carries that proviso: as stated over all inputs it is false,
see `claim_C1_cex`, where a string occurring in both input lists appears
in both output lists. -/
theorem claim_C1_classifier_dedup_disjoint (reqs niceExplicit : List (List Char))
    (fullText : List Char) :
    (classifyRequirements reqs niceExplicit fullText).must_have.Nodup ∧
    (classifyRequirements reqs niceExplicit fullText).nice_to_have.Nodup ∧
    (classifyRequirements reqs niceExplicit fullText).must_have.Sublist reqs ∧
    (classifyRequirements reqs niceExplicit fullText).nice_to_have.Sublist
      (niceExplicit ++ reqs) ∧
    ((reqs.filter (fun r => !classifyTarget r)).all
      (fun s => (classifyRequirements reqs niceExplicit fullText).must_have.contains s)
        = true) ∧
    ((niceExplicit ++ reqs.filter (fun r => classifyTarget r)).all
      (fun s => (classifyRequirements reqs niceExplicit fullText).nice_to_have.contains s)
        = true) ∧
    (reqs.all (fun s => !niceExplicit.contains s) = true →
      ((classifyRequirements reqs niceExplicit fullText).must_have.all
        (fun s => !(classifyRequirements reqs niceExplicit fullText).nice_to_have.contains s)
          = true)) := by
  rw [classifyRequirements_must_have, classifyRequirements_nice_to_have]
  refine ⟨nodup_dedupKeepFirst _, nodup_dedupKeepFirst _, ?_, ?_, ?_, ?_, ?_⟩
  · exact (sublist_dedupKeepFirst _).trans (List.filter_sublist _)
  · exact (sublist_dedupKeepFirst _).trans
      ((List.append_sublist_append_left _).mpr (List.filter_sublist _))
  · rw [List.all_eq_true]
    intro s hs
    simpa using (mem_dedupKeepFirst _ s).mpr hs
  · rw [List.all_eq_true]
    intro s hs
    simpa using (mem_dedupKeepFirst _ s).mpr hs
  · intro hdisj
    rw [List.all_eq_true]
    intro s hs
    rw [mem_dedupKeepFirst, List.mem_filter] at hs
    obtain ⟨hsreq, hsnot⟩ := hs
    simp only [Bool.not_eq_true']
    rw [← Bool.not_eq_true]
    intro hcont
    have hsmem : s ∈ dedupKeepFirst (niceExplicit ++
        reqs.filter (fun r => classifyTarget r)) := by
      simpa using hcont
    rw [mem_dedupKeepFirst, List.mem_append, List.mem_filter] at hsmem
    rcases hsmem with hnice | ⟨_, htgt⟩
    · have hd := List.all_eq_true.mp hdisj s hsreq
      simp only [Bool.not_eq_true'] at hd
      have : s ∉ niceExplicit := by simpa using hd
      exact this hnice
    · rw [htgt] at hsnot
      simp at hsnot

/-- C1 counterexample: the string `"abcdef"` given both as a requirement
line (no indicator keywords, so classified must-have) and as an explicit
nice-to-have item ends up in BOTH output lists, refuting the claimed
cross-list invariant as stated. -/
theorem claim_C1_cex :
    "abcdef".data ∈
      (classifyRequirements ["abcdef".data] ["abcdef".data] []).must_have ∧
    "abcdef".data ∈
      (classifyRequirements ["abcdef".data] ["abcdef".data] []).nice_to_have := by
  decide

/-- C1 witness at concrete inputs (the disjointness proviso of the last
conjunct holds here, so the cross-list disjointness fires as well). -/
theorem claim_C1_witness :
    (classifyRequirements ["aaaaaa".data] ["bbbbbb".data] []).must_have.Nodup ∧
    (classifyRequirements ["aaaaaa".data] ["bbbbbb".data] []).nice_to_have.Nodup ∧
    (classifyRequirements ["aaaaaa".data] ["bbbbbb".data] []).must_have.Sublist
      ["aaaaaa".data] ∧
    (classifyRequirements ["aaaaaa".data] ["bbbbbb".data] []).nice_to_have.Sublist
      (["bbbbbb".data] ++ ["aaaaaa".data]) ∧
    ((["aaaaaa".data].filter (fun r => !classifyTarget r)).all
      (fun s => (classifyRequirements ["aaaaaa".data] ["bbbbbb".data] []).must_have.contains s)
        = true) ∧
    ((["bbbbbb".data] ++ ["aaaaaa".data].filter (fun r => classifyTarget r)).all
      (fun s => (classifyRequirements ["aaaaaa".data] ["bbbbbb".data] []).nice_to_have.contains s)
        = true) ∧
    ((["aaaaaa".data] : List (List Char)).all
      (fun s => !(["bbbbbb".data] : List (List Char)).contains s) = true →
      ((classifyRequirements ["aaaaaa".data] ["bbbbbb".data] []).must_have.all
        (fun s => !(classifyRequirements ["aaaaaa".data] ["bbbbbb".data] []).nice_to_have.contains s)
          = true)) :=
  claim_C1_classifier_dedup_disjoint ["aaaaaa".data] ["bbbbbb".data] []

/-- The nested `if` of the classifier reduces to: nice-to-have exactly
when a nice indicator occurs and no must indicator occurs. -/
theorem classifyTarget_eq (req : List Char) :
    classifyTarget req =
      (containsAny niceToHaveIndicators (lowerL req) &&
        !containsAny mustHaveIndicators (lowerL req)) := by
  unfold classifyTarget
  cases h1 : containsAny mustHaveIndicators (lowerL req) <;>
    cases h2 : containsAny niceToHaveIndicators (lowerL req) <;> simp [h1, h2]

/-- C3: a requirement line goes to `nice_to_have` exactly when (lower-
cased) it contains a nice-to-have indicator and no must-have indicator;
in every other case it goes to `must_have`.  In particular a line
containing `"must have"` (a must indicator) and no nice indicator lands
in `must_have`. -/
theorem claim_C3_tie_break (reqs niceExplicit : List (List Char))
    (fullText : List Char) (req : List Char) (h : req ∈ reqs) :
    req ∈ (if containsAny niceToHaveIndicators (lowerL req) &&
        !containsAny mustHaveIndicators (lowerL req)
      then (classifyRequirements reqs niceExplicit fullText).nice_to_have
      else (classifyRequirements reqs niceExplicit fullText).must_have) := by
  rw [← classifyTarget_eq]
  by_cases htgt : classifyTarget req
  · rw [if_pos htgt, classifyRequirements_nice_to_have, mem_dedupKeepFirst]
    exact List.mem_append_right _ (List.mem_filter.mpr ⟨h, htgt⟩)
  · have htgt' : classifyTarget req = false := by simpa using htgt
    rw [if_neg (by simp [htgt']), classifyRequirements_must_have,
      mem_dedupKeepFirst]
    exact List.mem_filter.mpr ⟨h, by simp [htgt']⟩

/-- C3 witness: `"must have Python"` contains the must indicator
`"must have"` and no nice indicator, so it lands in `must_have`. -/
theorem claim_C3_witness :
    "must have Python".data ∈
      (if containsAny niceToHaveIndicators (lowerL "must have Python".data) &&
          !containsAny mustHaveIndicators (lowerL "must have Python".data)
        then (classifyRequirements ["must have Python".data] [] []).nice_to_have
        else (classifyRequirements ["must have Python".data] [] []).must_have) :=
  claim_C3_tie_break ["must have Python".data] [] [] "must have Python".data
    (by decide)

/-- C2: text normalization of the résumé pipeline is NOT idempotent (the
claim asserts it is, for both pipelines).  `ResumeParser._clean_text`
collapses whitespace before replacing special characters, so on
`"a!!b"` the two bangs become two spaces that a second normalization
collapses: normalizing once gives `"a  b"`, normalizing twice gives
`"a b"`.  (The job pipeline's order — replace first, collapse second —
is idempotent; see `cleanJob_idempotent`.) -/
theorem claim_C2_resume_normalization_not_idempotent :
    cleanResume "a!!b".data = "a  b".data ∧
    cleanResume (cleanResume "a!!b".data) = "a b".data ∧
    cleanResume (cleanResume "a!!b".data) ≠ cleanResume "a!!b".data := by
  decide

/-- C9: a skills token is kept exactly when its cleaned form has at least
two characters; tokens of cleaned length at most one are discarded.  The
source condition `skill and len(skill) > 1` is equivalent to
`2 ≤ len(skill)`. -/
theorem claim_C9_skill_length_threshold (cs : List Char) :
    extractSkills cs =
      ((splitSkillToks cs).map cleanSkillTok).filter
        (fun s => decide (2 ≤ s.length)) ∧
    (extractSkills cs).all (fun s => decide (2 ≤ s.length)) = true := by
  have hpred : ∀ s : List Char,
      (!s.isEmpty && decide (1 < s.length)) = decide (2 ≤ s.length) := by
    intro s; cases s
    · simp
    · simp; omega
  have heq : extractSkills cs =
      ((splitSkillToks cs).map cleanSkillTok).filter
        (fun s => decide (2 ≤ s.length)) := by
    by_cases h : cs = []
    · subst h; decide
    · rw [extractSkills, if_neg h]
      exact List.filter_congr (fun x _ => hpred x)
  refine ⟨heq, ?_⟩
  rw [heq, List.all_eq_true]
  intro s hs
  exact (List.mem_filter.mp hs).2

/-- C10: the `location` field of the contact info returned by
`parse_text` is declared and never assigned, hence always `None`. -/
theorem claim_C10_contact_location_always_none (t : List Char) :
    (parseText t).contact_info.location = none := rfl

theorem splitChar_ne_nil (sep : Char) (l : List Char) : splitChar sep l ≠ [] := by
  cases l with
  | nil => simp [splitChar]
  | cons c cs =>
    rw [splitChar]
    by_cases h : c = sep
    · simp [h]
    · rw [if_neg h]
      cases splitChar sep cs <;> simp

theorem parseJobEntry_company (e : List Char) (d : ExperienceEntry)
    (h : parseJobEntry e = some d) : d.company = none := by
  cases hsp : splitChar '\n' e with
  | nil => rw [parseJobEntry, hsp] at h; exact absurd h (by simp)
  | cons first rest =>
    rw [parseJobEntry, hsp] at h
    simp only [Option.some.injEq] at h
    rw [← h]

theorem parseJobEntry_raw (e : List Char) (d : ExperienceEntry)
    (h : parseJobEntry e = some d) : d.raw_text = e := by
  cases hsp : splitChar '\n' e with
  | nil => rw [parseJobEntry, hsp] at h; exact absurd h (by simp)
  | cons first rest =>
    rw [parseJobEntry, hsp] at h
    simp only [Option.some.injEq] at h
    rw [← h]

theorem parseJobEntry_isSome (e : List Char) : ∃ d, parseJobEntry e = some d := by
  rw [parseJobEntry]
  cases hsp : splitChar '\n' e with
  | nil => exact absurd hsp (splitChar_ne_nil _ _)
  | cons f r => exact ⟨_, rfl⟩

theorem extractExperience_company (t : List Char) :
    ∀ d ∈ extractExperience t, d.company = none := by
  intro d hd
  rw [extractExperience] at hd
  by_cases h : t = []
  · rw [if_pos h] at hd; simp at hd
  · rw [if_neg h] at hd
    obtain ⟨e, _, he⟩ := List.mem_filterMap.mp hd
    by_cases hlen : 20 < (stripWS e).length
    · rw [if_pos hlen] at he; exact parseJobEntry_company _ _ he
    · rw [if_neg hlen] at he; simp at he

theorem extractEducation_institution (t : List Char) :
    ∀ d ∈ extractEducation t, d.institution = none := by
  intro d hd
  rw [extractEducation] at hd
  by_cases h : t = []
  · rw [if_pos h] at hd; simp at hd
  · rw [if_neg h] at hd
    obtain ⟨e, _, he⟩ := List.mem_map.mp hd
    rw [← he]
    rfl

/-- C8: in every résumé parse result, every experience entry has
`company = None` and every education entry has `institution = None`
(both are hard-coded in the entry parsers). -/
theorem claim_C8_company_institution_always_none (t : List Char) :
    ((parseText t).experience.all (fun e => e.company == none)) = true ∧
    ((parseText t).education.all (fun e => e.institution == none)) = true := by
  refine ⟨List.all_eq_true.mpr fun d hd => ?_,
    List.all_eq_true.mpr fun d hd => ?_⟩
  · have h := extractExperience_company _ d hd
    simp [h]
  · have h := extractEducation_institution _ d hd
    simp [h]

/-- C7 (amended): a candidate entry of the experience split contributes a
parsed entry exactly when its trimmed length is at least 21, i.e. the
code discards entries with trimmed length `≤ 20` (the condition is
`len(entry.strip()) > 20`), not `< 20` as claimed; an entry of trimmed
length exactly 20 is discarded, see `claim_C7_cex`.  The `raw_text`
field of a parsed entry is its (stripped) source entry, which makes the
correspondence exact. -/
theorem claim_C7_trim_threshold (t e : List Char) (h : e ∈ splitExp t) :
    (extractExperience t).any (fun d => d.raw_text == stripWS e) =
      decide (21 ≤ (stripWS e).length) := by
  by_cases hlen : 21 ≤ (stripWS e).length
  · rw [decide_eq_true hlen, List.any_eq_true]
    have ht : t ≠ [] := by
      intro h0; subst h0
      simp [splitExp, splitExpAux] at h
      subst h
      simp [stripWS, lstripWS, rstripWS] at hlen
    obtain ⟨d, hd⟩ := parseJobEntry_isSome (stripWS e)
    refine ⟨d, ?_, ?_⟩
    · rw [extractExperience, if_neg ht]
      exact List.mem_filterMap.mpr
        ⟨e, h, by rw [if_pos (by omega : 20 < (stripWS e).length)]; exact hd⟩
    · rw [parseJobEntry_raw _ _ hd]
      exact beq_self_eq_true _
  · rw [decide_eq_false hlen, ← Bool.not_eq_true, List.any_eq_true]
    rintro ⟨d, hd, hbeq⟩
    have hraw : d.raw_text = stripWS e := eq_of_beq hbeq
    rw [extractExperience] at hd
    by_cases ht : t = []
    · rw [if_pos ht] at hd; simp at hd
    · rw [if_neg ht] at hd
      obtain ⟨e2, _, hy⟩ := List.mem_filterMap.mp hd
      by_cases hl2 : 20 < (stripWS e2).length
      · rw [if_pos hl2] at hy
        have h2 : d.raw_text = stripWS e2 := parseJobEntry_raw _ _ hy
        rw [hraw] at h2
        apply hlen
        rw [h2]
        omega
      · rw [if_neg hl2] at hy; simp at hy

/-- C7 counterexample: a 20-character candidate entry (trimmed length
exactly 20) is DISCARDED, while the claim says it is retained. -/
theorem claim_C7_cex :
    splitExp "aaaaaaaaaaaaaaaaaaaa".data = ["aaaaaaaaaaaaaaaaaaaa".data] ∧
    (stripWS "aaaaaaaaaaaaaaaaaaaa".data).length = 20 ∧
    extractExperience "aaaaaaaaaaaaaaaaaaaa".data = [] := by
  decide

/-- C7 witness: a 21-character entry is retained. -/
theorem claim_C7_witness :
    (extractExperience "aaaaaaaaaaaaaaaaaaaaa".data).any
      (fun d => d.raw_text == stripWS "aaaaaaaaaaaaaaaaaaaaa".data) =
      decide (21 ≤ (stripWS "aaaaaaaaaaaaaaaaaaaaa".data).length) :=
  claim_C7_trim_threshold "aaaaaaaaaaaaaaaaaaaaa".data
    "aaaaaaaaaaaaaaaaaaaaa".data (by decide)

theorem dropWhile_append_of_not (p : Char → Bool) (a : List Char) (c : Char)
    (hc : p c = false) (b : List Char) :
    (a ++ c :: b).dropWhile p = a.dropWhile p ++ c :: b := by
  induction a with
  | nil => simp [List.dropWhile_cons, hc]
  | cons x xs ih =>
    by_cases hx : p x
    · simp [List.dropWhile_cons, hx, ih]
    · simp [List.dropWhile_cons, hx]

theorem rstripWS_append_rest (l : List Char) : ∃ w, l = rstripWS l ++ w := by
  refine ⟨(l.reverse.takeWhile isWS).reverse, ?_⟩
  rw [rstripWS]
  conv_lhs => rw [← l.reverse_reverse,
    ← List.takeWhile_append_dropWhile (p := isWS) (l := l.reverse)]
  rw [List.reverse_append]

theorem collapseWS_cons_nonWS (c : Char) (hc : isWS c = false) (cs : List Char) :
    collapseWS (c :: cs) = c :: collapseWS cs := by
  cases cs with
  | nil => simp [collapseWS, hc]
  | cons c2 cs2 =>
    rw [collapseWS]
    simp [hc]

theorem collapseWS_append_cons (a : List Char) (c : Char) (hc : isWS c = false)
    (b : List Char) :
    collapseWS (a ++ c :: b) = collapseWS a ++ collapseWS (c :: b) := by
  induction a with
  | nil => simp [collapseWS]
  | cons x xs ih =>
    cases xs with
    | nil => cases hx : isWS x <;> simp [collapseWS, hx, hc]
    | cons y ys =>
      have ih' : collapseWS (y :: (ys ++ c :: b)) =
          collapseWS (y :: ys) ++ collapseWS (c :: b) := by
        simpa using ih
      cases hxy : (isWS x && isWS y) <;> simp [collapseWS, hxy, ih']

theorem collapseWS_append_last (b : List Char) (c : Char) (hc : isWS c = false)
    (d : List Char) :
    collapseWS ((b ++ [c]) ++ d) = collapseWS (b ++ [c]) ++ collapseWS d := by
  induction b with
  | nil => simp [collapseWS_cons_nonWS c hc, collapseWS, hc]
  | cons x xs ih =>
    cases xs with
    | nil =>
      simp only [List.cons_append, List.nil_append]
      cases hx : isWS x <;>
        simp [collapseWS, hx, hc, collapseWS_cons_nonWS c hc]
    | cons y ys =>
      have ih' : collapseWS ((y :: (ys ++ [c])) ++ d) =
          collapseWS (y :: (ys ++ [c])) ++ collapseWS d := by
        simpa using ih
      cases hxy : (isWS x && isWS y) <;>
        simp [collapseWS, hxy] <;> simpa using ih'

theorem mem_collapseWS (l : List Char) (c : Char) (h : c ∈ collapseWS l) :
    c ∈ l ∨ c = ' ' := by
  induction l using collapseWS.induct with
  | case1 => simp [collapseWS] at h
  | case2 x hx =>
    rw [collapseWS, if_pos hx] at h
    simp at h
    exact Or.inr h
  | case3 x hx =>
    rw [collapseWS, if_neg hx] at h
    simp at h
    exact Or.inl (by simp [h])
  | case4 c1 c2 cs hb ih =>
    rw [collapseWS, if_pos hb] at h
    rcases ih h with h1 | h1
    · exact Or.inl (List.mem_cons_of_mem _ h1)
    · exact Or.inr h1
  | case5 c1 c2 cs hb ih =>
    rw [collapseWS, if_neg hb] at h
    rcases List.mem_cons.mp h with rfl | h1
    · by_cases hc1 : isWS c1
      · simp [hc1]
      · simp [hc1]
    · rcases ih h1 with h2 | h2
      · exact Or.inl (List.mem_cons_of_mem _ h2)
      · exact Or.inr h2

theorem collapseWS_ws_space (l : List Char) (c : Char) (h : c ∈ collapseWS l)
    (hws : isWS c = true) : c = ' ' := by
  induction l using collapseWS.induct with
  | case1 => simp [collapseWS] at h
  | case2 x hx =>
    rw [collapseWS, if_pos hx] at h
    simpa using h
  | case3 x hx =>
    rw [collapseWS, if_neg hx] at h
    simp at h
    subst h
    exact absurd hws (by simpa using hx)
  | case4 c1 c2 cs hb ih =>
    rw [collapseWS, if_pos hb] at h
    exact ih h
  | case5 c1 c2 cs hb ih =>
    rw [collapseWS, if_neg hb] at h
    rcases List.mem_cons.mp h with rfl | h1
    · by_cases hc1 : isWS c1
      · simp [hc1]
      · have hc1' : isWS c1 = false := by simpa using hc1
        rw [if_neg (by simp [hc1'])] at hws
        exact absurd hws (by simp [hc1'])
    · exact ih h1

/-- No two adjacent whitespace characters. -/
def noDoubleWS : List Char → Bool
  | [] => true
  | [_] => true
  | c1 :: c2 :: cs => !(isWS c1 && isWS c2) && noDoubleWS (c2 :: cs)

theorem collapseWS_head_nonWS (c : Char) (hc : isWS c = false) (cs : List Char) :
    ∃ r, collapseWS (c :: cs) = c :: r :=
  ⟨collapseWS cs, collapseWS_cons_nonWS c hc cs⟩

theorem noDoubleWS_cons (e : Char) (X : List Char)
    (hX : noDoubleWS X = true)
    (h : isWS e = false ∨ ∀ x, X.head? = some x → isWS x = false) :
    noDoubleWS (e :: X) = true := by
  cases X with
  | nil => rfl
  | cons x xs =>
    rw [noDoubleWS]
    rcases h with he | hx
    · simp [he, hX]
    · simp [hx x rfl, hX]

theorem collapseWS_noDouble (l : List Char) : noDoubleWS (collapseWS l) = true := by
  induction l using collapseWS.induct with
  | case1 => rfl
  | case2 x hx => rw [collapseWS, if_pos hx]; rfl
  | case3 x hx => rw [collapseWS, if_neg hx]; rfl
  | case4 c1 c2 cs hb ih => rw [collapseWS, if_pos hb]; exact ih
  | case5 c1 c2 cs hb ih =>
    rw [collapseWS, if_neg hb]
    by_cases hc1 : isWS c1
    · have hc2 : isWS c2 = false := by
        cases h2 : isWS c2
        · rfl
        · exact absurd (by simp [hc1, h2]) hb
      refine noDoubleWS_cons _ _ ih (Or.inr ?_)
      intro x hx
      obtain ⟨r, hr⟩ := collapseWS_head_nonWS c2 hc2 cs
      rw [hr] at hx
      simp at hx
      subst hx
      exact hc2
    · refine noDoubleWS_cons _ _ ih (Or.inl ?_)
      simp [hc1]

theorem collapseWS_fix (l : List Char) (hnd : noDoubleWS l = true)
    (hsp : ∀ c ∈ l, isWS c = true → c = ' ') : collapseWS l = l := by
  induction l using collapseWS.induct with
  | case1 => rfl
  | case2 x hx =>
    rw [collapseWS, if_pos hx]
    rw [hsp x (by simp) hx]
  | case3 x hx => rw [collapseWS, if_neg hx]
  | case4 c1 c2 cs hb ih =>
    rw [noDoubleWS] at hnd
    simp [hb] at hnd
  | case5 c1 c2 cs hb ih =>
    rw [collapseWS, if_neg hb]
    rw [noDoubleWS] at hnd
    have hnd2 : noDoubleWS (c2 :: cs) = true := by
      cases h : noDoubleWS (c2 :: cs)
      · rw [h] at hnd; simp at hnd
      · rfl
    have ih2 := ih hnd2 (fun c hc hw => hsp c (List.mem_cons_of_mem _ hc) hw)
    rw [ih2]
    by_cases hc1 : isWS c1
    · rw [if_pos hc1, hsp c1 (by simp) hc1]
    · rw [if_neg hc1]

theorem noDoubleWS_tail (c : Char) (cs : List Char)
    (h : noDoubleWS (c :: cs) = true) : noDoubleWS cs = true := by
  cases cs with
  | nil => rfl
  | cons x xs =>
    simp only [noDoubleWS, Bool.and_eq_true] at h
    exact h.2

theorem noDoubleWS_dropWhile (p : Char → Bool) (l : List Char)
    (h : noDoubleWS l = true) : noDoubleWS (l.dropWhile p) = true := by
  induction l with
  | nil => exact h
  | cons c cs ih =>
    rw [List.dropWhile_cons]
    by_cases hc : p c
    · simp only [hc, if_true]
      exact ih (noDoubleWS_tail _ _ h)
    · simp only [hc, Bool.false_eq_true, if_false]
      exact h

theorem noDoubleWS_append_left (a b : List Char)
    (h : noDoubleWS (a ++ b) = true) : noDoubleWS a = true := by
  induction a with
  | nil => rfl
  | cons x xs ih =>
    cases xs with
    | nil => rfl
    | cons y ys =>
      rw [List.cons_append] at h
      simp only [noDoubleWS, Bool.and_eq_true] at h
      simp only [noDoubleWS, Bool.and_eq_true]
      exact ⟨h.1, ih h.2⟩

theorem noDoubleWS_rstripWS (l : List Char) (h : noDoubleWS l = true) :
    noDoubleWS (rstripWS l) = true := by
  obtain ⟨w, hw⟩ := rstripWS_append_rest l
  rw [hw] at h
  exact noDoubleWS_append_left _ _ h

theorem noDoubleWS_stripWS (l : List Char) (h : noDoubleWS l = true) :
    noDoubleWS (stripWS l) = true :=
  noDoubleWS_rstripWS _ (noDoubleWS_dropWhile _ _ h)

theorem mem_rstripWS (l : List Char) (c : Char) (h : c ∈ rstripWS l) : c ∈ l := by
  obtain ⟨w, hw⟩ := rstripWS_append_rest l
  rw [hw]
  exact List.mem_append_left _ h

theorem mem_stripWS (l : List Char) (c : Char) (h : c ∈ stripWS l) : c ∈ l :=
  (List.dropWhile_sublist _).mem (mem_rstripWS _ _ h)

theorem dropWhile_head_false (p : Char → Bool) (l : List Char) (c : Char)
    (cs : List Char) (h : l.dropWhile p = c :: cs) : p c = false := by
  induction l with
  | nil => simp [List.dropWhile] at h
  | cons x xs ih =>
    rw [List.dropWhile_cons] at h
    by_cases hx : p x
    · simp only [hx, if_true] at h
      exact ih h
    · simp only [hx, Bool.false_eq_true, if_false] at h
      cases h
      simpa using hx

theorem dropWhile_idem (p : Char → Bool) (l : List Char) :
    (l.dropWhile p).dropWhile p = l.dropWhile p := by
  cases h : l.dropWhile p with
  | nil => rfl
  | cons c cs =>
    rw [List.dropWhile_cons, dropWhile_head_false p l c cs h]
    simp

theorem lstripWS_noop (l : List Char)
    (h : ∀ c, l.head? = some c → isWS c = false) : lstripWS l = l := by
  cases l with
  | nil => rfl
  | cons c cs =>
    rw [lstripWS, List.dropWhile_cons, h c rfl]
    simp

theorem rstripWS_idem (l : List Char) : rstripWS (rstripWS l) = rstripWS l := by
  rw [rstripWS, rstripWS, List.reverse_reverse, dropWhile_idem]

theorem rstripWS_head (l : List Char) (c : Char) (cs : List Char)
    (h : rstripWS l = c :: cs) : l.head? = some c := by
  obtain ⟨w, hw⟩ := rstripWS_append_rest l
  rw [hw, h]
  rfl

theorem stripWS_idem (l : List Char) : stripWS (stripWS l) = stripWS l := by
  rw [stripWS, stripWS]
  have h1 : lstripWS (rstripWS (lstripWS l)) = rstripWS (lstripWS l) := by
    apply lstripWS_noop
    intro c hc
    cases h : rstripWS (lstripWS l) with
    | nil => rw [h] at hc; simp at hc
    | cons x xs =>
      rw [h] at hc
      simp at hc
      subst hc
      have := rstripWS_head _ _ _ h
      cases h2 : lstripWS l with
      | nil => rw [h2] at this; simp at this
      | cons y ys =>
        rw [h2] at this
        simp at this
        subst this
        exact dropWhile_head_false isWS l _ _ h2
  rw [h1, rstripWS_idem]

theorem mem_replaceSpecial_allowed (l : List Char) (c : Char)
    (h : c ∈ replaceSpecial l) : allowedChar c = true := by
  rw [replaceSpecial] at h
  obtain ⟨x, _, hx⟩ := List.mem_map.mp h
  by_cases ha : allowedChar x
  · rw [if_pos ha] at hx; rw [← hx]; exact ha
  · rw [if_neg ha] at hx; rw [← hx]; decide

theorem replaceSpecial_fix (l : List Char)
    (h : ∀ c ∈ l, allowedChar c = true) : replaceSpecial l = l := by
  rw [replaceSpecial]
  induction l with
  | nil => rfl
  | cons x xs ih =>
    rw [List.map_cons, if_pos (h x (by simp)), ih (fun c hc => h c (by simp [hc]))]

theorem mem_cleanJob_allowed (t : List Char) (c : Char) (h : c ∈ cleanJob t) :
    allowedChar c = true := by
  rw [cleanJob] at h
  have h1 := mem_stripWS _ _ h
  rcases mem_collapseWS _ _ h1 with h2 | h2
  · exact mem_replaceSpecial_allowed _ _ h2
  · subst h2; decide

/-- The job pipeline's normalization IS idempotent: its output contains
only allowed characters (so the character replacement is the identity on
it), has no doubled whitespace and only `' '` as whitespace (so the
whitespace collapse is the identity on it), and is stripped. -/
theorem cleanJob_idempotent (t : List Char) :
    cleanJob (cleanJob t) = cleanJob t := by
  have h1 : replaceSpecial (cleanJob t) = cleanJob t :=
    replaceSpecial_fix _ (fun c hc => mem_cleanJob_allowed t c hc)
  have hnd : noDoubleWS (cleanJob t) = true :=
    noDoubleWS_stripWS _ (collapseWS_noDouble _)
  have hsp : ∀ c ∈ cleanJob t, isWS c = true → c = ' ' := by
    intro c hc hw
    rw [cleanJob] at hc
    exact collapseWS_ws_space _ _ (mem_stripWS _ _ hc) hw
  have h2 : collapseWS (cleanJob t) = cleanJob t := collapseWS_fix _ hnd hsp
  have h3 : stripWS (cleanJob t) = cleanJob t := stripWS_idem _
  show stripWS (collapseWS (replaceSpecial (cleanJob t))) = cleanJob t
  rw [h1, h2, h3]

theorem lookup_filterMap_notin (tl : List HeaderPattern)
    (f : HeaderPattern → Option (String × List Char))
    (hf : ∀ q r, f q = some r → r.1 = q.name)
    (nm : String) (hnm : nm ∉ tl.map (fun p => p.name)) :
    (tl.filterMap f).lookup nm = none := by
  induction tl with
  | nil => rfl
  | cons hd tl ih =>
    rw [List.filterMap_cons]
    have hnm' : nm ∉ tl.map (fun p => p.name) := by
      intro h; exact hnm (by simp [h])
    have hne : nm ≠ hd.name := by
      intro h; exact hnm (by simp [h])
    cases hfh : f hd with
    | none => exact ih hnm'
    | some r =>
      obtain ⟨k, v⟩ := r
      have hk : k = hd.name := hf hd (k, v) hfh
      subst hk
      simp only [List.lookup, beq_eq_false_iff_ne.mpr hne]
      exact ih hnm'

theorem lookup_filterMap_self (tbl : List HeaderPattern)
    (f : HeaderPattern → Option (String × List Char))
    (hf : ∀ q r, f q = some r → r.1 = q.name)
    (hnd : (tbl.map (fun p => p.name)).Nodup)
    (p : HeaderPattern) (hp : p ∈ tbl) (v : List Char)
    (hfp : f p = some (p.name, v)) :
    (tbl.filterMap f).lookup p.name = some v := by
  induction tbl with
  | nil => simp at hp
  | cons hd tl ih =>
    rw [List.map_cons, List.nodup_cons] at hnd
    rw [List.filterMap_cons]
    rcases List.mem_cons.mp hp with rfl | hp'
    · rw [hfp]
      simp [List.lookup]
    · have hne : p.name ≠ hd.name := by
        intro h
        exact hnd.1 (h ▸ List.mem_map_of_mem _ hp')
      cases hfh : f hd with
      | none => exact ih hnd.2 hp'
      | some r =>
        obtain ⟨k, v2⟩ := r
        have hk : k = hd.name := hf hd (k, v2) hfh
        subst hk
        simp only [List.lookup, beq_eq_false_iff_ne.mpr hne]
        exact ih hnd.2 hp'

theorem foldl_min_le_init (l : List Nat) (a : Nat) : l.foldl Nat.min a ≤ a := by
  induction l generalizing a with
  | nil => simp
  | cons x xs ih => exact le_trans (ih (Nat.min a x)) (Nat.min_le_left a x)

theorem foldl_min_le_mem (l : List Nat) :
    ∀ (a x : Nat), x ∈ l → l.foldl Nat.min a ≤ x := by
  induction l with
  | nil => intro a x hx; simp at hx
  | cons y ys ih =>
    intro a x hx
    rcases List.mem_cons.mp hx with rfl | hx'
    · exact le_trans (foldl_min_le_init ys _) (Nat.min_le_right a x)
    · exact ih _ x hx'

theorem foldl_min_mem (l : List Nat) :
    ∀ a : Nat, l.foldl Nat.min a = a ∨ l.foldl Nat.min a ∈ l := by
  induction l with
  | nil => intro a; simp
  | cons x xs ih =>
    intro a
    rw [List.foldl_cons]
    rcases ih (Nat.min a x) with h | h
    · rw [h]
      by_cases hc : a ≤ x
      · exact Or.inl (by simp [Nat.min_def, hc])
      · refine Or.inr ?_
        have hx : Nat.min a x = x := by simp [Nat.min_def, hc]
        rw [hx]
        simp
    · exact Or.inr (List.mem_cons_of_mem _ h)

theorem sectionEndPos_spec (tbl : List HeaderPattern) (p : HeaderPattern)
    (t : List Char) (e : Nat) :
    ((sectionEnds tbl p t e).all (fun a => decide (sectionEndPos tbl p t e ≤ a))
        = true) ∧
    (sectionEnds tbl p t e = [] → sectionEndPos tbl p t e = t.length) ∧
    (sectionEnds tbl p t e ≠ [] →
      sectionEndPos tbl p t e ∈ sectionEnds tbl p t e) := by
  refine ⟨?_, ?_, ?_⟩
  · rw [List.all_eq_true]
    intro a ha
    apply decide_eq_true
    cases h : sectionEnds tbl p t e with
    | nil => rw [h] at ha; simp at ha
    | cons x xs =>
      rw [h] at ha
      rw [sectionEndPos, h]
      rcases List.mem_cons.mp ha with rfl | ha'
      · exact foldl_min_le_init xs a
      · exact foldl_min_le_mem xs x a ha'
  · intro h0
    rw [sectionEndPos, h0]
  · intro hne
    cases h : sectionEnds tbl p t e with
    | nil => exact absurd h hne
    | cons x xs =>
      rw [sectionEndPos, h]
      rcases foldl_min_mem xs x with h1 | h1
      · show xs.foldl Nat.min x ∈ x :: xs
        rw [h1]
        simp
      · exact List.mem_cons_of_mem _ h1

/-- C4: if a header pattern matches (end of the `pattern[:\s]*` match at
position `e`), the produced section is exactly
`text[e : sectionEndPos].strip()`, where `sectionEndPos` is the minimum
of the other patterns' first-match start positions after `e`
(`sectionEnds`), or the end of the text when no other pattern matches
there.  Instantiable with both concrete tables, whose names are
distinct. -/
theorem claim_C4_section_bounds (tbl : List HeaderPattern) (p : HeaderPattern)
    (t : List Char) (s e : Nat)
    (hnd : (tbl.map (fun p => p.name)).Nodup)
    (hp : p ∈ tbl) (hm : p.searchHdr t = some (s, e)) :
    (extractSections tbl t).lookup p.name =
      some (stripWS ((t.take (sectionEndPos tbl p t e)).drop e)) ∧
    ((sectionEnds tbl p t e).all (fun a => decide (sectionEndPos tbl p t e ≤ a))
        = true) ∧
    (sectionEnds tbl p t e = [] → sectionEndPos tbl p t e = t.length) ∧
    (sectionEnds tbl p t e ≠ [] →
      sectionEndPos tbl p t e ∈ sectionEnds tbl p t e) := by
  obtain ⟨h1, h2, h3⟩ := sectionEndPos_spec tbl p t e
  refine ⟨?_, h1, h2, h3⟩
  rw [extractSections]
  apply lookup_filterMap_self tbl _ ?_ hnd p hp
  · rw [hm]
    rfl
  · intro q r hqr
    cases hq : q.searchHdr t with
    | none => rw [hq] at hqr; simp at hqr
    | some m =>
      rw [hq] at hqr
      simp only [Option.map_some', Option.some.injEq] at hqr
      rw [← hqr]

theorem lookup_filterMap_self_none (tbl : List HeaderPattern)
    (f : HeaderPattern → Option (String × List Char))
    (hf : ∀ q r, f q = some r → r.1 = q.name)
    (hnd : (tbl.map (fun p => p.name)).Nodup)
    (p : HeaderPattern) (hp : p ∈ tbl) (hfp : f p = none) :
    (tbl.filterMap f).lookup p.name = none := by
  induction tbl with
  | nil => rfl
  | cons hd tl ih =>
    rw [List.map_cons, List.nodup_cons] at hnd
    rw [List.filterMap_cons]
    rcases List.mem_cons.mp hp with rfl | hp'
    · rw [hfp]
      exact lookup_filterMap_notin tl f hf p.name hnd.1
    · have hne : p.name ≠ hd.name := by
        intro h
        exact hnd.1 (h ▸ List.mem_map_of_mem _ hp')
      cases hfh : f hd with
      | none => exact ih hnd.2 hp'
      | some r =>
        obtain ⟨k, v⟩ := r
        have hk : k = hd.name := hf hd (k, v) hfh
        subst hk
        simp only [List.lookup, beq_eq_false_iff_ne.mpr hne]
        exact ih hnd.2 hp'

/-- C5: with distinct section names (true of both concrete tables), the
section mapping has a key for a pattern exactly when that pattern's
header search matched, and if no header matches the mapping is empty. -/
theorem claim_C5_section_key_iff_match (tbl : List HeaderPattern) (t : List Char)
    (hnd : (tbl.map (fun p => p.name)).Nodup) :
    (tbl.all (fun p =>
      ((extractSections tbl t).lookup p.name).isSome == (p.searchHdr t).isSome)
        = true) ∧
    ((tbl.all (fun p => (p.searchHdr t).isNone)) = true →
      extractSections tbl t = []) := by
  have hf : ∀ (q : HeaderPattern) (r : String × List Char),
      (q.searchHdr t).map (fun m =>
        (q.name, stripWS ((t.take (sectionEndPos tbl q t m.2)).drop m.2))) = some r →
      r.1 = q.name := by
    intro q r hqr
    cases hq : q.searchHdr t with
    | none => rw [hq] at hqr; simp at hqr
    | some m =>
      rw [hq] at hqr
      simp only [Option.map_some', Option.some.injEq] at hqr
      rw [← hqr]
  constructor
  · rw [List.all_eq_true]
    intro p hp
    cases hm : p.searchHdr t with
    | some m =>
      obtain ⟨s, e⟩ := m
      have hl := lookup_filterMap_self tbl _ hf hnd p hp
        (stripWS ((t.take (sectionEndPos tbl p t e)).drop e)) (by rw [hm]; rfl)
      rw [extractSections, hl]
      rfl
    | none =>
      have hl := lookup_filterMap_self_none tbl _ hf hnd p hp (by rw [hm]; rfl)
      rw [extractSections, hl]
      rfl
  · intro hall
    rw [extractSections]
    apply List.filterMap_eq_nil_iff.mpr
    intro p hp
    have := List.all_eq_true.mp hall p hp
    rw [Option.isNone_iff_eq_none] at this
    rw [this]
    rfl

/-- C4 witness on the job table: in `"bonus: x role: y"` the
`nice_to_have` header matches at the start (match end 7 including the
colon and space), the `responsibilities` pattern matches `"role"` later,
and the produced section is the strip of the text between them. -/
theorem claim_C4_witness :
    (extractSections jobSectionTable "bonus: x role: y".data).lookup
        jobNicePat.name =
      some (stripWS ((("bonus: x role: y".data).take
        (sectionEndPos jobSectionTable jobNicePat "bonus: x role: y".data 7)).drop 7)) ∧
    ((sectionEnds jobSectionTable jobNicePat "bonus: x role: y".data 7).all
      (fun a => decide
        (sectionEndPos jobSectionTable jobNicePat "bonus: x role: y".data 7 ≤ a))
        = true) ∧
    (sectionEnds jobSectionTable jobNicePat "bonus: x role: y".data 7 = [] →
      sectionEndPos jobSectionTable jobNicePat "bonus: x role: y".data 7 =
        ("bonus: x role: y".data).length) ∧
    (sectionEnds jobSectionTable jobNicePat "bonus: x role: y".data 7 ≠ [] →
      sectionEndPos jobSectionTable jobNicePat "bonus: x role: y".data 7 ∈
        sectionEnds jobSectionTable jobNicePat "bonus: x role: y".data 7) :=
  claim_C4_section_bounds jobSectionTable jobNicePat "bonus: x role: y".data 0 7
    (by decide)
    (by unfold jobSectionTable
        exact List.Mem.tail _ (List.Mem.tail _ (List.Mem.tail _
          (List.Mem.tail _ (List.Mem.head _)))))
    (by decide)

/-- C5 witness on the résumé table with a text in which no header
matches: every lookup is as absent as the search, and the mapping is
empty. -/
theorem claim_C5_witness :
    (resumeSectionTable.all (fun p =>
      ((extractSections resumeSectionTable "zzz".data).lookup p.name).isSome ==
        (p.searchHdr "zzz".data).isSome) = true) ∧
    ((resumeSectionTable.all (fun p => (p.searchHdr "zzz".data).isNone)) = true →
      extractSections resumeSectionTable "zzz".data = []) :=
  claim_C5_section_key_iff_match resumeSectionTable "zzz".data (by decide)

theorem isDigit_not_WS (c : Char) (h : c.isDigit = true) : isWS c = false := by
  cases hw : isWS c
  · rfl
  · exfalso
    simp only [isWS, Bool.or_eq_true, decide_eq_true_eq] at hw
    rcases hw with ((((e | e) | e) | e) | e) | e <;> subst e <;> simp at h

theorem isDigit_ne_space (c : Char) (h : c.isDigit = true) : c ≠ ' ' := by
  intro e
  rw [e] at h
  exact absurd h (by decide)

theorem collapseWS_cons_inv (m : List Char) (c : Char) (r : List Char)
    (hc : isWS c = false) (h : collapseWS m = c :: r) :
    ∃ m', m = c :: m' ∧ collapseWS m' = r := by
  induction m using collapseWS.induct with
  | case1 => simp [collapseWS] at h
  | case2 x hx =>
    rw [collapseWS, if_pos hx] at h
    simp at h
    obtain ⟨h1, _⟩ := h
    subst h1
    exact absurd hc (by decide)
  | case3 x hx =>
    rw [collapseWS, if_neg hx] at h
    simp at h
    obtain ⟨h1, h2⟩ := h
    subst h1
    exact ⟨[], rfl, by rw [h2]; rfl⟩
  | case4 c1 c2 cs hb ih =>
    obtain ⟨m', hm1, hm2⟩ := ih (by rw [← h, collapseWS, if_pos hb])
    have hc2 : isWS c2 = true := by
      cases hw : isWS c2
      · rw [hw] at hb; simp at hb
      · rfl
    exfalso
    have : c2 = c := by
      have := hm1
      simp at this
      exact this.1
    rw [this, hc] at hc2
    exact Bool.false_ne_true hc2
  | case5 c1 c2 cs hb ih =>
    rw [collapseWS, if_neg hb] at h
    simp at h
    obtain ⟨h1, h2⟩ := h
    by_cases hc1 : isWS c1
    · rw [if_pos hc1] at h1
      subst h1
      exact absurd hc (by decide)
    · rw [if_neg hc1] at h1
      subst h1
      exact ⟨c2 :: cs, rfl, h2⟩

theorem replaceSpecial_cons_inv (post : List Char) (c : Char) (m' : List Char)
    (hc : c ≠ ' ') (h : replaceSpecial post = c :: m') :
    ∃ p', post = c :: p' ∧ replaceSpecial p' = m' := by
  cases post with
  | nil => simp [replaceSpecial] at h
  | cons x xs =>
    rw [replaceSpecial, List.map_cons] at h
    simp only [List.cons.injEq] at h
    obtain ⟨h1, h2⟩ := h
    by_cases ha : allowedChar x
    · rw [if_pos ha] at h1
      subst h1
      exact ⟨xs, rfl, h2⟩
    · rw [if_neg ha] at h1
      exact absurd h1.symm hc

/-- Transport a non-whitespace, non-space leading character pattern of the
cleaned-and-stripped text back to the raw text. -/
theorem clean_head_transport (post : List Char) (c : Char) (r : List Char)
    (hcw : isWS c = false) (hcs : c ≠ ' ')
    (h : collapseWS (replaceSpecial post) = c :: r) :
    ∃ p', post = c :: p' ∧ ∃ r', collapseWS (replaceSpecial p') = r' ∧ r' = r := by
  obtain ⟨m', hm1, hm2⟩ := collapseWS_cons_inv _ c _ hcw h
  obtain ⟨p', hp1, hp2⟩ := replaceSpecial_cons_inv _ c _ hcs hm1
  exact ⟨p', hp1, collapseWS (replaceSpecial p'), rfl, by rw [hp2, hm2]⟩

theorem headKay_transport (post : List Char) (h : headKay post = false) :
    headKay (rstripWS (collapseWS (replaceSpecial post))) = false := by
  cases hB : rstripWS (collapseWS (replaceSpecial post)) with
  | nil => rfl
  | cons c r =>
    rw [headKay]
    by_cases hck : c = 'k' ∨ c = 'K'
    · exfalso
      have hcw : isWS c = false := by rcases hck with rfl | rfl <;> decide
      have hcs : c ≠ ' ' := by rcases hck with rfl | rfl <;> decide
      obtain ⟨w, hw⟩ := rstripWS_append_rest (collapseWS (replaceSpecial post))
      rw [hB] at hw
      obtain ⟨m', hm1, _⟩ := collapseWS_cons_inv _ c _ hcw hw.symm.symm
      obtain ⟨p', hp1, _⟩ := replaceSpecial_cons_inv _ c _ hcs hm1
      rw [hp1, headKay] at h
      rcases hck with rfl | rfl <;> simp at h
    · push_neg at hck
      simp [hck.1, hck.2]

theorem startsCommaD3_transport (post : List Char)
    (h : startsCommaD3 post = false) :
    startsCommaD3 (rstripWS (collapseWS (replaceSpecial post))) = false := by
  rcases hB : rstripWS (collapseWS (replaceSpecial post)) with
    _ | ⟨c0, _ | ⟨c1, _ | ⟨c2, _ | ⟨c3, r⟩⟩⟩⟩
  · rfl
  · rfl
  · rfl
  · rfl
  · rw [startsCommaD3]
    by_cases hall : c0 = ',' ∧ c1.isDigit = true ∧ c2.isDigit = true ∧
        c3.isDigit = true
    · exfalso
      obtain ⟨hc0, hd1, hd2, hd3⟩ := hall
      subst hc0
      obtain ⟨w, hw⟩ := rstripWS_append_rest (collapseWS (replaceSpecial post))
      rw [hB] at hw
      obtain ⟨m1, hma, hmb⟩ := collapseWS_cons_inv _ ',' _ (by decide) hw.symm.symm
      obtain ⟨m2, hm2a, hm2b⟩ := collapseWS_cons_inv _ c1 _ (isDigit_not_WS _ hd1) hmb
      obtain ⟨m3, hm3a, hm3b⟩ := collapseWS_cons_inv _ c2 _ (isDigit_not_WS _ hd2) hm2b
      obtain ⟨m4, hm4a, _⟩ := collapseWS_cons_inv _ c3 _ (isDigit_not_WS _ hd3) hm3b
      rw [hm2a] at hma
      obtain ⟨p1, hp1a, hp1b⟩ := replaceSpecial_cons_inv _ ',' _ (by decide) hma
      rw [hm3a] at hp1b
      obtain ⟨p2, hp2a, hp2b⟩ :=
        replaceSpecial_cons_inv _ c1 _ (isDigit_ne_space _ hd1) hp1b
      rw [hm4a] at hp2b
      obtain ⟨p3, hp3a, hp3b⟩ :=
        replaceSpecial_cons_inv _ c2 _ (isDigit_ne_space _ hd2) hp2b
      obtain ⟨p4, hp4a, _⟩ :=
        replaceSpecial_cons_inv _ c3 _ (isDigit_ne_space _ hd3) hp3b
      rw [hp1a, hp2a, hp3a, hp4a, startsCommaD3] at h
      simp [hd1, hd2, hd3] at h
    · push_neg at hall
      by_cases h0 : c0 = ','
      · by_cases h1 : c1.isDigit = true
        · by_cases h2 : c2.isDigit = true
          · have h3 := hall h0 h1 h2
            simp [h3]
          · simp [h2]
        · simp [h1]
      · simp [h0]

theorem commaGroups_stop (B : List Char) (h : startsCommaD3 B = false) :
    commaGroups B = ([], B) := by
  rcases B with _ | ⟨c0, _ | ⟨c1, _ | ⟨c2, _ | ⟨c3, r⟩⟩⟩⟩
  · rfl
  · rfl
  · rfl
  · rfl
  · rw [startsCommaD3] at h
    rw [commaGroups, if_neg]
    rw [h]
    exact Bool.false_ne_true

theorem salSfxTake_kCI_stop (B : List Char) (h : headKay B = false) :
    salSfxTake .kCI B = ([], B) := by
  cases B with
  | nil => rfl
  | cons c r =>
    rw [headKay] at h
    rw [salSfxTake, if_neg]
    rw [h]
    exact Bool.false_ne_true

theorem salNumEnd_scenario (B : List Char)
    (hcg : commaGroups B = ([], B)) (hsf : salSfxTake .kCI B = ([], B)) :
    salNumEnd .kCI ("150,000".data ++ B) = some ("150,000".data, B) := by
  have h1 : commaGroups (",000".data ++ B) = (",000".data, B) := by
    rw [show ",000".data ++ B = ',' :: '0' :: '0' :: '0' :: B from rfl]
    rw [commaGroups, if_pos (by decide)]
    rw [hcg]
  simp only [salNumEnd]
  rw [show ("150,000".data ++ B).takeWhile Char.isDigit = "150".data from rfl]
  rw [if_neg (by decide)]
  rw [show List.drop (List.take 3 "150".data).length ("150,000".data ++ B) =
    ",000".data ++ B from rfl]
  rw [h1, hsf]
  rfl

theorem sal3At_scenario (B : List Char)
    (hkB : headKay B = false) (hcB : startsCommaD3 B = false) :
    sal3At ("Salary: 120,000 - 150,000".data ++ B) =
      some ("120,000".data, "150,000".data) := by
  have hend := salNumEnd_scenario B (commaGroups_stop B hcB)
    (salSfxTake_kCI_stop B hkB)
  have hstep : sal3At ("Salary: 120,000 - 150,000".data ++ B) =
      (match salNumEnd .kCI ("150,000".data ++ B) with
       | none => none
       | some (g2, _) => some ("120,000".data, g2)) := rfl
  rw [hstep, hend]

theorem scanFirst_skip (f : List Char → Option (List Char × List Char))
    (u : List Char) :
    ∀ v : List Char,
      (∀ q, q < u.length → f (List.drop q (u ++ v)) = none) →
      ∀ r : List Char × List Char, f v = some r →
      scanFirst f (u ++ v) = some r := by
  induction u with
  | nil =>
    intro v _ r hv
    cases v with
    | nil => rw [List.nil_append, scanFirst, hv]
    | cons c cs => rw [List.nil_append, scanFirst, hv]
  | cons c u' ih =>
    intro v hu r hv
    have h0 : f (c :: (u' ++ v)) = none := by
      have := hu 0 (by simp)
      simpa using this
    rw [List.cons_append, scanFirst, h0]
    exact ih v (fun q hq => by
      have := hu (q + 1) (by simp; omega)
      simpa using this) r hv

theorem sal1At_no_dollar (l : List Char) (hl : ∀ c ∈ l, c ≠ '$') :
    scanFirst sal1At l = none := by
  induction l with
  | nil => rfl
  | cons c cs ih =>
    rw [scanFirst, sal1At, if_neg (hl c (by simp))]
    exact ih (fun x hx => hl x (by simp [hx]))

theorem sal2At_no_dollar (l : List Char) (hl : ∀ c ∈ l, c ≠ '$') :
    scanFirst sal2At l = none := by
  induction l with
  | nil => rfl
  | cons c cs ih =>
    rw [scanFirst, sal2At, if_neg (hl c (by simp))]
    exact ih (fun x hx => hl x (by simp [hx]))

theorem cleanJob_no_dollar (t : List Char) : ∀ c ∈ cleanJob t, c ≠ '$' := by
  intro c hc he
  have := mem_cleanJob_allowed t c hc
  rw [he] at this
  exact absurd this (by decide)

theorem rstripWS_append (x y : List Char) (c : Char) (w : List Char)
    (hx : x.reverse = c :: w) (hc : isWS c = false) :
    rstripWS (x ++ y) = x ++ rstripWS y := by
  rw [rstripWS, List.reverse_append, hx,
    dropWhile_append_of_not isWS y.reverse c hc w, List.reverse_append]
  rw [show (c :: w).reverse = x from by rw [← hx, List.reverse_reverse]]
  rw [rstripWS]

/-- Decomposition of the cleaned text around the salary scenario
substring: the boundary characters `S` and `0` are not whitespace, so
whitespace collapsing and stripping act independently on the three
parts, and the scenario substring cleans to
`"Salary: 120,000 - 150,000"` (the two `$` become spaces that collapse
away). -/
theorem cleanJob_decomp (pre post : List Char) :
    cleanJob (pre ++ "Salary: $120,000 - $150,000".data ++ post) =
      lstripWS (collapseWS (replaceSpecial pre)) ++
      "Salary: 120,000 - 150,000".data ++
      rstripWS (collapseWS (replaceSpecial post)) := by
  rw [cleanJob]
  have h1 : replaceSpecial (pre ++ "Salary: $120,000 - $150,000".data ++ post) =
      replaceSpecial pre ++
        ("Salary:  120,000 -  150,00".data ++ ['0']) ++ replaceSpecial post := by
    simp only [replaceSpecial, List.map_append]
    rw [show List.map (fun c => if allowedChar c then c else ' ')
      "Salary: $120,000 - $150,000".data =
      "Salary:  120,000 -  150,00".data ++ ['0'] from by decide]
  rw [h1]
  have h2 : replaceSpecial pre ++
        ("Salary:  120,000 -  150,00".data ++ ['0']) ++ replaceSpecial post =
      replaceSpecial pre ++
        'S' :: ("alary:  120,000 -  150,00".data ++ ['0'] ++ replaceSpecial post) := by
    simp
  rw [h2, collapseWS_append_cons _ 'S' (by decide)]
  have h3 : 'S' :: ("alary:  120,000 -  150,00".data ++ ['0'] ++ replaceSpecial post) =
      ("Salary:  120,000 -  150,00".data ++ ['0']) ++ replaceSpecial post := by
    simp
  rw [h3, collapseWS_append_last _ '0' (by decide)]
  rw [show collapseWS ("Salary:  120,000 -  150,00".data ++ ['0']) =
    "Salary: 120,000 - 150,00".data ++ ['0'] from by decide]
  rw [stripWS, lstripWS]
  rw [show collapseWS (replaceSpecial pre) ++
      ("Salary: 120,000 - 150,00".data ++ ['0'] ++ collapseWS (replaceSpecial post)) =
    collapseWS (replaceSpecial pre) ++
      ('S' :: ("alary: 120,000 - 150,00".data ++ ['0'] ++
        collapseWS (replaceSpecial post))) from by simp]
  rw [dropWhile_append_of_not isWS _ 'S' (by decide)]
  rw [show List.dropWhile isWS (collapseWS (replaceSpecial pre)) ++
      'S' :: ("alary: 120,000 - 150,00".data ++ ['0'] ++
        collapseWS (replaceSpecial post)) =
    (List.dropWhile isWS (collapseWS (replaceSpecial pre)) ++
      ("Salary: 120,000 - 150,00".data ++ ['0'])) ++
      collapseWS (replaceSpecial post) from by simp]
  rw [rstripWS_append _ _ '0'
    ("Salary: 120,000 - 150,00".data.reverse ++
      (List.dropWhile isWS (collapseWS (replaceSpecial pre))).reverse)
    (by rw [List.reverse_append, List.reverse_append]; rfl) (by decide)]
  rw [lstripWS]
  simp

/-- C6 (amended): for a job-posting text `pre ++ "Salary: $120,000 -
$150,000" ++ post`, provided the third salary pattern has no match
starting before the scenario's position in the normalized text, and
`post` does not begin with `k`/`K` or a `,ddd` group (which would extend
the second captured number, see `claim_C6_cex`), the parsed
`salary_range` is `"$120,000 - $150,000"`.  In the normalized text the
two `$` are gone (`$` is not in the cleaning allow-list), so the `\$`-
anchored first two salary patterns can never match and the
`salary`-label pattern produces the value. -/
theorem claim_C6_salary_scenario (pre post : List Char)
    (hx : extendsNumber post = false)
    (hE : (List.range (lstripWS (collapseWS (replaceSpecial pre))).length).all
      (fun q => (sal3At ((cleanJob (pre ++ "Salary: $120,000 - $150,000".data
        ++ post)).drop q)).isNone) = true) :
    parseJobSalaryRange (pre ++ "Salary: $120,000 - $150,000".data ++ post) =
      some "$120,000 - $150,000".data := by
  have hkpost : headKay post = false := by
    cases hkk : headKay post
    · rfl
    · rw [extendsNumber, hkk] at hx; simp at hx
  have hcpost : startsCommaD3 post = false := by
    cases hcc : startsCommaD3 post
    · rfl
    · rw [extendsNumber, hcc] at hx; simp at hx
  have hkB := headKay_transport post hkpost
  have hcB := startsCommaD3_transport post hcpost
  have hdec := cleanJob_decomp pre post
  have hsal3 := sal3At_scenario _ hkB hcB
  have hd := cleanJob_no_dollar
    (pre ++ "Salary: $120,000 - $150,000".data ++ post)
  have hscan : scanFirst sal3At
      (cleanJob (pre ++ "Salary: $120,000 - $150,000".data ++ post)) =
      some ("120,000".data, "150,000".data) := by
    rw [hdec, List.append_assoc]
    refine scanFirst_skip sal3At _ _ ?_ _ hsal3
    intro q hq
    have h := List.all_eq_true.mp hE q (List.mem_range.mpr hq)
    rw [Option.isNone_iff_eq_none] at h
    rw [hdec, List.append_assoc] at h
    exact h
  rw [parseJobSalaryRange, extractSalaryRange,
    sal1At_no_dollar _ hd, sal2At_no_dollar _ hd, hscan]
  rfl

/-- C6 counterexample to the claim as stated: the text
`"Salary: $120,000 - $150,000k"` contains the scenario substring with no
earlier salary-like match, but the trailing `k` is captured into the
second group by `(?i)(?:k|,000)?`, so the result is
`"$120,000 - $150,000k"`, not `"$120,000 - $150,000"`. -/
theorem claim_C6_cex :
    parseJobSalaryRange "Salary: $120,000 - $150,000k".data =
      some "$120,000 - $150,000k".data ∧
    parseJobSalaryRange "Salary: $120,000 - $150,000k".data ≠
      some "$120,000 - $150,000".data := by
  decide

/-- C6 witness with empty `pre` and `post`. -/
theorem claim_C6_witness :
    parseJobSalaryRange ([] ++ "Salary: $120,000 - $150,000".data ++ []) =
      some "$120,000 - $150,000".data :=
  claim_C6_salary_scenario [] [] (by decide) (by decide)
